import Mathlib

/-!
Verification of the conversation-turn engine, permission filtering, todo
tool, skill-file parsing and conversation lookup of the pydanticai-agent
server, as a shallow embedding in Lean.

Python strings are modelled as Lean `String`, dictionaries as association
lists, database rows as structures, and the streaming turn engine of
`ConversationService.chat_stream` as a fold over a list of typed events.
-/

namespace PydanticDeep

/-! ### Python string primitives

ASCII fragment of Python whitespace (`str.strip`, `str.rstrip`, `\s`):
space, tab, newline, carriage return, vertical tab, form feed. -/

def isPySpace (c : Char) : Bool :=
  c = ' ' || c = '\t' || c = '\n' || c = '\r' || c = '\x0b' || c = '\x0c'

def stripChars (l : List Char) : List Char :=
  ((l.dropWhile isPySpace).reverse.dropWhile isPySpace).reverse

/-- Python `str.strip()`. -/
def pyStrip (s : String) : String := String.mk (stripChars s.data)

/-- Python `str.rstrip()`. -/
def pyRstrip (s : String) : String :=
  String.mk ((s.data.reverse.dropWhile isPySpace).reverse)

/-- First index at which `pat` occurs in `s` (Python `str.find`). -/
def findSub (pat : List Char) (s : List Char) : Option Nat :=
  match s with
  | [] => if pat.isEmpty then some 0 else none
  | c :: rest =>
    if pat.isPrefixOf (c :: rest) then some 0
    else (findSub pat rest).map (· + 1)

/-! ### The simple-YAML frontmatter line parser

Both `pydantic_deep/toolsets/skills.py` and `src/services/skill_service.py`
contain a character-identical loop parsing `key: value` lines and `  - item`
list items into a dict; it is embedded once here and used by both parsers.
A value is either a string or a list of strings. -/

inductive FmVal where
  | str : String → FmVal
  | list : List String → FmVal
deriving DecidableEq, Repr

/-- A Python dict as an insertion-ordered association list. -/
abbrev Fm := List (String × FmVal)

/-- `d[k] = v` on a Python dict: replace in place or append. -/
def fmSet (d : Fm) (k : String) (v : FmVal) : Fm :=
  match d with
  | [] => [(k, v)]
  | (k', v') :: rest => if k' = k then (k, v) :: rest else (k', v') :: fmSet rest k v

/-- `current_list.append(x)` where `current_list` aliases the list stored at
key `k` (mutation in place of the dict entry). -/
def fmAppendItem (d : Fm) (k : String) (x : String) : Fm :=
  match d with
  | [] => []
  | (k', v') :: rest =>
    if k' = k then
      match v' with
      | FmVal.list l => (k, FmVal.list (l ++ [x])) :: rest
      | v => (k', v) :: rest
    else (k', v') :: fmAppendItem rest k x

/-- Python truthiness of the `current_key` variable (`None` and `""` are falsy). -/
def keyTruthy : Option String → Bool
  | none => false
  | some k => k ≠ ""

/-- Strip one layer of matching single or double quotes, as in the source:
`value.startswith(q) and value.endswith(q)` then `value[1:-1]`. -/
def stripQuotes (value : String) : String :=
  if (('\"' :: []).isPrefixOf value.data && ('\"' :: []).isSuffixOf value.data)
      || (('\x27' :: []).isPrefixOf value.data && ('\x27' :: []).isSuffixOf value.data) then
    String.mk ((value.data.drop 1).dropLast)
  else value

structure YamlSt where
  fm : Fm
  currentKey : Option String
  /-- Whether `current_list` is not `None`. -/
  listActive : Bool

/-- One iteration of `for line in frontmatter_yaml.split("\n")`. -/
def yamlLineStep (st : YamlSt) (rawLine : String) : YamlSt :=
  let line := pyRstrip rawLine
  if line.data.isEmpty then st
  else if (' ' :: ' ' :: '-' :: ' ' :: []).isPrefixOf line.data && keyTruthy st.currentKey then
    let item := pyStrip (String.mk (line.data.drop 4))
    let k := st.currentKey.getD ""
    if st.listActive then { st with fm := fmAppendItem st.fm k item }
    else { st with fm := fmSet st.fm k (FmVal.list [item]), listActive := true }
  else
    match line.data.findIdx? (fun c => c = ':') with
    | some i =>
      let key := pyStrip (String.mk (line.data.take i))
      let value := pyStrip (String.mk (line.data.drop (i + 1)))
      if value ≠ "" then
        { fm := fmSet st.fm key (FmVal.str (stripQuotes value)),
          currentKey := some key, listActive := false }
      else
        { st with currentKey := some key, listActive := false }
    | none => st

/-- The shared `key: value` / list-item frontmatter parser. -/
def parseSimpleYaml (yaml : String) : Fm :=
  ((yaml.splitOn "\n").foldl yamlLineStep { fm := [], currentKey := none, listActive := false }).fm

/-! ### `parse_skill_md`, toolset version (`pydantic_deep/toolsets/skills.py`)

The source matches `re.match(r"^---\s*\n(.*?)\n---\s*\n?", content, re.DOTALL)`.
The matcher below realises exactly the backtracking semantics of that pattern:
the leading greedy run tries the rightmost newline inside the maximal
whitespace run first; the lazy group stops at the first later occurrence of
newline-dash-dash-dash; the trailing run then greedily eats whitespace while
the optional final newline necessarily matches empty. -/

def wsRunLen (l : List Char) : Nat := (l.takeWhile isPySpace).length

/-- Try candidate positions `j` (the index matched by the literal newline
after the opening delimiter) in the order the regex engine backtracks.
Returns `(captured group, remainder after the match end)`. -/
def matchRest (t : List Char) : List Nat → Option (List Char × List Char)
  | [] => none
  | j :: js =>
    let u := t.drop (j + 1)
    match findSub ('\n' :: '-' :: '-' :: '-' :: []) u with
    | some i =>
      let v := u.drop (i + 4)
      some (u.take i, v.drop (wsRunLen v))
    | none => matchRest t js

def matchFm (cs : List Char) : Option (List Char × List Char) :=
  if ('-' :: '-' :: '-' :: []).isPrefixOf cs then
    let t := cs.drop 3
    let wl := wsRunLen t
    let cands := ((List.range wl).filter (fun j => (t.drop j).head? = some '\n')).reverse
    matchRest t cands
  else none

namespace Skills

/-- `parse_skill_md` of `pydantic_deep/toolsets/skills.py`: regex frontmatter
split, no match means empty frontmatter and stripped whole content. -/
def parse_skill_md (content : String) : Fm × String :=
  match matchFm content.data with
  | none => ([], pyStrip content)
  | some (g, rest) => (parseSimpleYaml (String.mk g), pyStrip (String.mk rest))

end Skills

namespace SkillService

/-- `parse_skill_md` of `src/services/skill_service.py`: `str.find("---", 3)`
based split; inputs without opening or closing delimiter are returned verbatim. -/
def parse_skill_md (content : String) : Fm × String :=
  if ¬ (('-' :: '-' :: '-' :: []).isPrefixOf content.data) then ([], content)
  else
    match findSub ('-' :: '-' :: '-' :: []) (content.data.drop 3) with
    | none => ([], content)
    | some i =>
      let frontmatterYaml := pyStrip (String.mk ((content.data.drop 3).take i))
      let instructions := pyStrip (String.mk (content.data.drop (i + 3 + 3)))
      (parseSimpleYaml frontmatterYaml, instructions)

end SkillService

/-! ### Todos (`pydantic_deep/toolsets/todo.py`)

`write_todos` converts the submitted items to the internal `Todo` type,
unconditionally replaces `ctx.deps.todos`, and returns a summary string. -/

inductive TodoStatus where
  | pending
  | in_progress
  | completed
deriving DecidableEq, Repr

structure TodoItem where
  content : String
  status : TodoStatus
  active_form : String
deriving DecidableEq, Repr

/-- Internal `Todo` of `pydantic_deep/types.py` (same three fields). -/
structure Todo where
  content : String
  status : TodoStatus
  active_form : String
deriving DecidableEq, Repr

/-- The slice of `DeepAgentDeps` the todo toolset touches. -/
structure DepsTodos where
  todos : List Todo
deriving DecidableEq, Repr

def countStatus (ts : List Todo) (st : TodoStatus) : Nat :=
  (ts.filter (fun t => t.status = st)).length

/-- The `write_todos` tool body: replace `ctx.deps.todos` and report counts. -/
def write_todos (deps : DepsTodos) (todos : List TodoItem) : DepsTodos × String :=
  let newTodos := todos.map (fun t => Todo.mk t.content t.status t.active_form)
  let deps' : DepsTodos := { deps with todos := newTodos }
  let n := todos.length
  let c := countStatus newTodos TodoStatus.completed
  let i := countStatus newTodos TodoStatus.in_progress
  let p := countStatus newTodos TodoStatus.pending
  (deps', s!"Updated {n} todos: {c} completed, {i} in progress, {p} pending")

/-! ### Permission filtering (`pydantic_deep/tool_filter.py`) -/

/-- `_BUILTIN_TOOL_PREFIXES`. -/
def builtinToolNameStarts : List String :=
  ["read_todos", "write_todos", "ls", "read_file", "write_file", "edit_file",
   "glob", "grep", "execute", "task", "load_skill", "run_skill"]

/-- `name.startswith(builtin_prefixes)` with a tuple argument. -/
def startsWithAnyOf (name : String) (starts : List String) : Bool :=
  starts.any (fun p => p.data.isPrefixOf name.data)

/-- Python truthiness of `user_id` (`None` and `0` are falsy). -/
def userIdFalsy : Option Nat → Bool
  | none => true
  | some 0 => true
  | some (_ + 1) => false

/-- `filter_tools_by_permission`, with the permitted set already resolved
(`get_user_tool_permissions` returns the empty set on repository failure).
Tool definitions are represented by their names. -/
def filter_tools_by_permission (userId : Option Nat) (permitted : List String)
    (toolDefs : List String) : List String :=
  if userIdFalsy userId then toolDefs
  else if permitted.isEmpty then toolDefs
  else toolDefs.filter (fun name => startsWithAnyOf name builtinToolNameStarts || name ∈ permitted)

/-! ### MCP registry and the chat-endpoint toolset

`load_mcp_config_from_db` keeps the configs of active servers whose transport
requirements are met; `FastMCPToolset` then exposes every tool of every
configured server.  A server row carries the names of the tools it serves. -/

inductive TransportType where
  | stdio
  | http
  | sse
deriving DecidableEq, Repr

structure McpServerRec where
  name : String
  transport_type : TransportType
  command : Option String
  url : Option String
  is_active : Bool
  /-- Tool names this MCP server exposes over the protocol. -/
  tools : List String
deriving DecidableEq, Repr

/-- The servers that end up in the `mcpServers` config map. -/
def load_mcp_config_from_db (servers : List McpServerRec) : List McpServerRec :=
  servers.filter (fun srv =>
    srv.is_active &&
      match srv.transport_type with
      | TransportType.stdio => srv.command.isSome
      | TransportType.http => srv.url.isSome
      | TransportType.sse => srv.url.isSome)

/-- Built-in tool names registered by `create_deep_agent`, in registration
order: todo toolset, filesystem toolset (`execute` when the backend is a
sandbox), subagent toolset when enabled, skills toolset. -/
def builtinToolNames (includeExecute includeSubagents : Bool) : List String :=
  ["read_todos", "write_todos"]
    ++ (["ls", "read_file", "write_file", "edit_file", "glob", "grep"]
        ++ (if includeExecute then ["execute"] else []))
    ++ (if includeSubagents then ["task"] else [])
    ++ ["list_skills", "load_skill", "read_skill_resource", "execute_skill_script"]

/-- Tool names visible to the LLM for an agent built by `create_deep_agent`.
The chat endpoint passes keyword argument mcp_tool_names, but the factory has
no such parameter: the value is swallowed by **agent_kwargs and never used,
and the endpoint sets enable_permission_filtering=False, so no prepare_tools
filter is installed.  With enable_mcp_tools=True every tool of every
configured server is added. -/
def create_deep_agent_tool_names (includeSubagents : Bool)
    (_mcpToolNames : Option (List String)) (servers : List McpServerRec) : List String :=
  builtinToolNames true includeSubagents
    ++ ((load_mcp_config_from_db servers).map (fun srv => srv.tools)).flatten

/-- Toolset produced by `POST /api/conversations/{id}/chat`
(`src/api/conversations.py`): `mcp_tool_filter = None if body.mcp_tools ==
"auto" else body.mcp_tools` is handed to `create_deep_agent`; the user's
permitted MCP tool set is never consulted on this path. -/
def chat_stream_toolset (enableSubagents : Bool) (selection : Option (List String))
    (_permitted : List String) (servers : List McpServerRec) : List String :=
  let mcpToolFilter := selection
  create_deep_agent_tool_names enableSubagents mcpToolFilter servers

/-- Modelled from the spec: the toolset the specification promises, namely
builtins union (permitted intersected with the selection), where a `none`
selection is "auto" and means all permitted tools. -/
def spec_toolset_visible (enableSubagents : Bool) (selection : Option (List String))
    (permitted : List String) (name : String) : Bool :=
  name ∈ builtinToolNames true enableSubagents
    || (name ∈ permitted &&
        match selection with
        | none => true
        | some sel => name ∈ sel)

/-! ### Conversations and messages (`src/models/conversations.py`,
`src/services/conversation_service.py`) -/

inductive Role where
  | user
  | model
  | toolReturn
deriving DecidableEq, Repr

structure ToolCallRec where
  name : String
  args : String
  tool_call_id : String
deriving DecidableEq, Repr

/-- A `messages` row (columns irrelevant to the claims are omitted). -/
structure Msg where
  conversation_id : Nat
  step_order : Nat
  role : Role
  content : Option String
  tool_calls : Option (List ToolCallRec)
  tool_name : Option String
  tool_call_id : Option String
  tool_return_content : Option String
deriving DecidableEq, Repr

/-- A `conversations` row (columns irrelevant to the claims are omitted). -/
structure ConversationRec where
  id : Nat
  user_id : Nat
  is_archived : Bool
deriving DecidableEq, Repr

def userRow (cid step : Nat) (text : String) : Msg :=
  { conversation_id := cid, step_order := step, role := Role.user,
    content := some text, tool_calls := none, tool_name := none,
    tool_call_id := none, tool_return_content := none }

def modelToolRow (cid step : Nat) (text : String) (calls : List ToolCallRec) : Msg :=
  { conversation_id := cid, step_order := step, role := Role.model,
    content := some text, tool_calls := some calls, tool_name := none,
    tool_call_id := none, tool_return_content := none }

def toolReturnRow (cid step : Nat) (toolName id content : String) : Msg :=
  { conversation_id := cid, step_order := step, role := Role.toolReturn,
    content := none, tool_calls := none, tool_name := some toolName,
    tool_call_id := some id, tool_return_content := some content }

def finalModelRow (cid step : Nat) (text : String) : Msg :=
  { conversation_id := cid, step_order := step, role := Role.model,
    content := some text, tool_calls := none, tool_name := none,
    tool_call_id := none, tool_return_content := none }

/-- `ConversationService.get_conversation`: the select filters on id, owner
and `is_archived == False`; ids are primary keys, so `find?` models
`scalar_one_or_none`. -/
def get_conversation (db : List ConversationRec) (conversationId userId : Nat) :
    Option ConversationRec :=
  db.find? (fun c => c.id = conversationId && c.user_id = userId && c.is_archived = false)

/-- `ConversationService._get_next_step_order`: one past the largest
`step_order` of the conversation, or 1 when it has no rows. -/
def get_next_step_order (msgs : List Msg) (cid : Nat) : Nat :=
  match ((msgs.filter (fun m => m.conversation_id = cid)).map (fun m => m.step_order)).max? with
  | some m => m + 1
  | none => 1

/-- `ConversationService.get_messages` (ownership check then ordered read;
limit and offset left at their defaults). -/
def get_messages (db : List ConversationRec) (msgs : List Msg) (cid uid : Nat) :
    Except String (List Msg) :=
  match get_conversation db cid uid with
  | none => Except.error "Conversation not found"
  | some _ =>
    Except.ok ((msgs.filter (fun m => m.conversation_id = cid)).mergeSort
      (fun a b => a.step_order ≤ b.step_order))

/-! ### The streaming turn engine (`ConversationService.chat_stream`)

The engine consumes the typed events `run_stream_events` yields.  Text parts
other than `TextPart` or `TextPartDelta`, and events without a handler branch
(`AgentRunResultEvent`, `FinalResultEvent`), are `otherEvent`.  The tool
result is carried as its already-serialized content string. -/

inductive Ev where
  | partStartText (content : String)
  | partDeltaText (delta : String)
  | functionToolCall (name args id : String)
  | functionToolResult (id content : String)
  | otherEvent
deriving DecidableEq, Repr

inductive ClientEv where
  | text (content : String)
  | toolCall (toolName args id : String)
  | toolResult (toolName result id : String)
deriving DecidableEq, Repr

/-- Per-turn mutable state of the loop: `assistant_text_chunks`,
`current_tool_calls`, `tool_names`, `step_order`. -/
structure EngineSt where
  chunks : List String
  current : List ToolCallRec
  names : List (String × String)
  step : Nat
deriving DecidableEq, Repr

/-- `tool_names[id] = name` on a Python dict. -/
def namesSet (m : List (String × String)) (k v : String) : List (String × String) :=
  match m with
  | [] => [(k, v)]
  | (k', v') :: rest => if k' = k then (k, v) :: rest else (k', v') :: namesSet rest k v

/-- `tool_names.get(id, "unknown")`. -/
def lookupName (m : List (String × String)) (id : String) : Option String :=
  (m.find? (fun p => p.1 = id)).map (fun p => p.2)

/-- One iteration of `async for event in stream`: produces the next state,
the rows persisted during the iteration (in commit order) and the events
yielded to the client. -/
def engineStep (cid : Nat) (s : EngineSt) : Ev → EngineSt × List Msg × List ClientEv
  | Ev.partStartText c =>
    if c ≠ "" then ({ s with chunks := s.chunks ++ [c] }, [], [ClientEv.text c])
    else (s, [], [])
  | Ev.partDeltaText c =>
    if c ≠ "" then ({ s with chunks := s.chunks ++ [c] }, [], [ClientEv.text c])
    else (s, [], [])
  | Ev.functionToolCall n a id =>
    ({ s with current := s.current ++ [ToolCallRec.mk n a id],
              names := namesSet s.names id n }, [], [ClientEv.toolCall n a id])
  | Ev.functionToolResult id content =>
    let toolName := (lookupName s.names id).getD "unknown"
    let emitted := [ClientEv.toolResult toolName content id]
    if s.current ≠ [] then
      ({ chunks := [], current := [], names := s.names, step := s.step + 2 },
       [modelToolRow cid s.step (String.join s.chunks) s.current,
        toolReturnRow cid (s.step + 1) toolName id content], emitted)
    else
      ({ s with step := s.step + 1 },
       [toolReturnRow cid s.step toolName id content], emitted)
  | Ev.otherEvent => (s, [], [])

def engineRun (cid : Nat) (s : EngineSt) : List Ev → EngineSt × List Msg × List ClientEv
  | [] => (s, [], [])
  | e :: rest =>
    let out₁ := engineStep cid s e
    let out₂ := engineRun cid out₁.1 rest
    (out₂.1, out₁.2.1 ++ out₂.2.1, out₁.2.2 ++ out₂.2.2)

/-- The whole persisting-and-streaming part of `chat_stream`: the user row is
committed first, the loop runs, and a final model row is committed when text
remains in the accumulator. -/
def chatStreamRun (cid startStep : Nat) (userMessage : String) (events : List Ev) :
    List Msg × List ClientEv :=
  let s0 : EngineSt := { chunks := [], current := [], names := [], step := startStep + 1 }
  let out := engineRun cid s0 events
  let finalRows :=
    if out.1.chunks ≠ [] then [finalModelRow cid out.1.step (String.join out.1.chunks)] else []
  (userRow cid startStep userMessage :: (out.2.1 ++ finalRows), out.2.2)

/-- `chat_stream` including its validation prologue: an unknown or archived
conversation raises before anything is persisted. -/
def chat_stream (db : List ConversationRec) (msgs : List Msg) (cid uid : Nat)
    (userMessage : String) (events : List Ev) : Except String (List Msg × List ClientEv) :=
  match get_conversation db cid uid with
  | none => Except.error "Conversation not found"
  | some _ => Except.ok (chatStreamRun cid (get_next_step_order msgs cid) userMessage events)

/-! ### Well-formed event streams

`run_stream_events` yields, per model response, its text and tool-call parts
(fresh `tool_call_id`s), then exactly one `FunctionToolResultEvent` per tool
call of that response (in any completion order) before the next response
begins.  The automaton below captures this contract: `batch` holds the ids
called since the last batch completed, `due` the ids of the flushed batch
still awaiting results, `used` every id seen. -/

structure WfSt where
  batch : List String
  due : List String
  used : List String
deriving DecidableEq, Repr

def wfStep (w : WfSt) : Ev → Option WfSt
  | Ev.functionToolCall _ _ id =>
    if w.due.isEmpty && ¬ (id ∈ w.used) then
      some { batch := w.batch ++ [id], due := [], used := w.used ++ [id] }
    else none
  | Ev.functionToolResult id _ =>
    if w.due.isEmpty then
      if id ∈ w.batch then some { batch := [], due := w.batch.erase id, used := w.used }
      else none
    else
      if id ∈ w.due then some { w with due := w.due.erase id } else none
  | _ => some w

def wfRun (w : WfSt) : List Ev → Option WfSt
  | [] => some w
  | e :: rest =>
    match wfStep w e with
    | some w' => wfRun w' rest
    | none => none

/-- A complete stream is well formed when the automaton accepts it and no
flushed tool call is left without its result. -/
def WellFormed (events : List Ev) : Prop :=
  ∃ w : WfSt, wfRun { batch := [], due := [], used := [] } events = some w ∧ w.due = []

/-! ### Valid alternation of persisted rows (spec section 3)

A readback checker: a turn's rows must be one `user` row, then blocks of a
`model` row (possibly with tool calls) followed by one `tool_return` per
carried call, with at most one final text-only `model` row, truncated at any
point.  `rem` holds the call ids of the last model row still expecting their
returns; `finalSeen` is set by a model row without tool calls. -/

structure ChkSt where
  rem : List String
  finalSeen : Bool
deriving DecidableEq, Repr

def chkStep (st : ChkSt) (m : Msg) : Option ChkSt :=
  match m.role with
  | Role.user => none
  | Role.model =>
    if st.finalSeen then none
    else if st.rem ≠ [] then none
    else
      match m.tool_calls with
      | some calls => some { rem := calls.map (fun c => c.tool_call_id), finalSeen := false }
      | none => some { rem := [], finalSeen := true }
  | Role.toolReturn =>
    if st.finalSeen then none
    else
      match m.tool_call_id with
      | some id => if id ∈ st.rem then some { st with rem := st.rem.erase id } else none
      | none => none

def chkRun (st : ChkSt) : List Msg → Option ChkSt
  | [] => some st
  | m :: rest =>
    match chkStep st m with
    | some st' => chkRun st' rest
    | none => none

/-- The rows of a turn, read back in `step_order`, form a valid alternation
(or a truncation of one). -/
def validTurnRows (rows : List Msg) : Prop :=
  match rows with
  | [] => True
  | u :: body => u.role = Role.user ∧ chkRun { rem := [], finalSeen := false } body ≠ none

/-- Every `tool_return` row is preceded by a `model` row whose tool calls
contain its `tool_call_id`, at a strictly smaller `step_order`. -/
def PairedRows (rows : List Msg) : Prop :=
  ∀ r ∈ rows, r.role = Role.toolReturn →
    ∃ q ∈ rows, q.role = Role.model ∧ q.step_order < r.step_order ∧
      ∃ id calls, r.tool_call_id = some id ∧ q.tool_calls = some calls ∧
        id ∈ calls.map (fun c => c.tool_call_id)

/-- Call ids of the `tool_call` frames in a client-event list. -/
def callIds (evs : List ClientEv) : List String :=
  evs.filterMap (fun e =>
    match e with
    | ClientEv.toolCall _ _ id => some id
    | _ => none)

/-- Every `tool_result` frame is preceded by a `tool_call` frame with its id
(`seen` accumulates ids of calls emitted so far). -/
def pairedEv (seen : List String) : List ClientEv → Prop
  | [] => True
  | ClientEv.toolCall _ _ id :: rest => pairedEv (seen ++ [id]) rest
  | ClientEv.toolResult _ _ id :: rest => id ∈ seen ∧ pairedEv seen rest
  | ClientEv.text _ :: rest => pairedEv seen rest

/-- Invariant tying the well-formedness automaton, the engine state and the
rows committed so far during the loop. -/
def EngineInv (w : WfSt) (s : EngineSt) (rows : List Msg) : Prop :=
  s.current.map (fun c => c.tool_call_id) = w.batch
    ∧ chkRun { rem := [], finalSeen := false } rows = some { rem := w.due, finalSeen := false }
    ∧ (∀ q ∈ rows, q.step_order < s.step)
    ∧ (∀ d ∈ w.due, ∃ q ∈ rows, q.role = Role.model ∧
        ∃ calls, q.tool_calls = some calls ∧ d ∈ calls.map (fun c => c.tool_call_id))
    ∧ PairedRows rows
    ∧ (w.batch = [] ∨ w.due = [])

instance validTurnRowsDecidable : (rows : List Msg) → Decidable (validTurnRows rows)
  | [] => Decidable.isTrue True.intro
  | _ :: _ => by unfold validTurnRows; infer_instance

/-! ## Theorems -/

/-! ### Claim C9 — the two `parse_skill_md` implementations -/

/-- C9.  The claim states that the regex-based parser of the skills toolset
and the string-search parser of the skill service compute the same pair on
every input, in particular on inputs with no frontmatter.  They do not: on
an input with no frontmatter the toolset strips the instructions while the
service returns them verbatim. -/
theorem C9_counterexample :
    Skills.parse_skill_md " x" ≠ SkillService.parse_skill_md " x" := by
  decide

/-- C9 (amended).  On inputs that do not start with the frontmatter
delimiter, both parsers return empty frontmatter, but the toolset parser
strips the content while the service parser returns it unchanged; the two
therefore agree on such inputs only up to whitespace stripping (and on
inputs whose frontmatter values contain the delimiter they split at
different positions). -/
theorem C9_no_frontmatter_split (content : String)
    (h : ('-' :: '-' :: '-' :: []).isPrefixOf content.data = false) :
    Skills.parse_skill_md content = ([], pyStrip content)
      ∧ SkillService.parse_skill_md content = ([], content) := by
  constructor
  · simp [Skills.parse_skill_md, matchFm, h]
  · simp [SkillService.parse_skill_md, h]

theorem C9_no_frontmatter_split_witness :
    (('-' :: '-' :: '-' :: []).isPrefixOf " x".data = false)
      ∧ (Skills.parse_skill_md " x" = ([], pyStrip " x")
          ∧ SkillService.parse_skill_md " x" = ([], " x")) :=
  ⟨by decide, C9_no_frontmatter_split " x" (by decide)⟩

/-! ### Claim C6 — `write_todos` and multiple `in_progress` entries -/

/-- C6.  The claim states that a todo list with two `in_progress` entries is
rejected without replacing the stored list.  In the source `write_todos`
performs no validation: it replaces `ctx.deps.todos` unconditionally and
returns a success summary. -/
theorem C6_counterexample :
    (write_todos { todos := [Todo.mk "old" TodoStatus.pending "Old"] }
        [TodoItem.mk "a" TodoStatus.in_progress "Doing a",
         TodoItem.mk "b" TodoStatus.in_progress "Doing b"]).1.todos
      = [Todo.mk "a" TodoStatus.in_progress "Doing a",
         Todo.mk "b" TodoStatus.in_progress "Doing b"]
    ∧ (write_todos { todos := [Todo.mk "old" TodoStatus.pending "Old"] }
        [TodoItem.mk "a" TodoStatus.in_progress "Doing a",
         TodoItem.mk "b" TodoStatus.in_progress "Doing b"]).2
      = "Updated 2 todos: 0 completed, 2 in progress, 0 pending" :=
  ⟨rfl, rfl⟩

/-- C6 (amended).  `write_todos` accepts every submitted list, including
lists with two or more `in_progress` entries, and unconditionally replaces
the stored todo list; the at-most-one-`in_progress` rule exists only as
prompt guidance to the model and is not enforced. -/
theorem C6_write_todos_unconditional (deps : DepsTodos) (todos : List TodoItem) :
    (write_todos deps todos).1.todos
      = todos.map (fun t => Todo.mk t.content t.status t.active_form) :=
  rfl

/-! ### Claim C2 — empty permitted set and the tool filter -/

/-- C2.  The claim states that when permission resolution yields the empty
set only built-in tools survive filtering.  In the source
`filter_tools_by_permission` returns the tool definitions unchanged when the
permitted set is empty, so an MCP tool definition survives. -/
theorem C2_counterexample :
    filter_tools_by_permission (some 7) [] ["some_mcp_tool"] = ["some_mcp_tool"]
      ∧ startsWithAnyOf "some_mcp_tool" builtinToolNameStarts = false := by
  decide

/-- C2 (amended).  When permission resolution yields a non-empty set, the
filter keeps exactly the definitions whose name has a built-in prefix or is
in the permitted set; when resolution yields the empty set (including the
repository-failure path of `get_user_tool_permissions`), the filter returns
the toolset unchanged, so every MCP tool definition survives for that turn. -/
theorem C2_filter_behaviour (uid : Nat) (permitted toolDefs : List String)
    (h : permitted ≠ []) :
    filter_tools_by_permission (some (uid + 1)) permitted toolDefs
        = toolDefs.filter
            (fun name => startsWithAnyOf name builtinToolNameStarts || name ∈ permitted)
      ∧ filter_tools_by_permission (some (uid + 1)) [] toolDefs = toolDefs := by
  have hne : permitted.isEmpty = false := by
    cases permitted with
    | nil => exact absurd rfl h
    | cons a l => rfl
  constructor
  · simp [filter_tools_by_permission, userIdFalsy, hne]
  · simp [filter_tools_by_permission, userIdFalsy]

theorem C2_filter_behaviour_witness :
    (["tool_x"] ≠ ([] : List String))
      ∧ (filter_tools_by_permission (some 3) ["tool_x"] ["ls", "tool_x", "tool_y"]
            = (["ls", "tool_x", "tool_y"]).filter
                (fun name => startsWithAnyOf name builtinToolNameStarts || name ∈ ["tool_x"])
          ∧ filter_tools_by_permission (some 3) [] ["ls", "tool_x", "tool_y"]
            = ["ls", "tool_x", "tool_y"]) :=
  ⟨by decide, C2_filter_behaviour 2 ["tool_x"] ["ls", "tool_x", "tool_y"] (by decide)⟩

/-! ### Claim C1 — MCP toolset versus permissions and selection -/

/-- C1.  The claim (and the endpoint documentation) state that the toolset
visible to the LLM is exactly builtins union (permitted intersected with the
selection).  On the chat path the selection is passed to `create_deep_agent`
as a keyword argument the factory does not declare, so it is swallowed by
its `**agent_kwargs`, and `enable_permission_filtering` is `False`; the
toolset therefore contains every tool of every configured MCP server.  At
the input below the user is permitted only `tool_x` and selects
`["tool_x", "tool_y"]`, yet `tool_y` is visible, while the specified toolset
excludes it. -/
theorem C1_selection_and_permissions_ignored :
    "tool_y" ∈ chat_stream_toolset false (some ["tool_x", "tool_y"]) ["tool_x"]
        [McpServerRec.mk "srv" TransportType.stdio (some "npx") none true ["tool_y"]]
      ∧ spec_toolset_visible false (some ["tool_x", "tool_y"]) ["tool_x"] "tool_y" = false := by
  decide

/-! ### Claim C10 — archived conversations are unreadable -/

/-- C10.  `get_conversation` filters on `is_archived == False`, so for an
archived conversation it returns none even for the owner; `chat_stream` and
`get_messages` consequently fail with the conversation-not-found error. -/
theorem C10_archived_unreachable (db : List ConversationRec) (msgs : List Msg)
    (cid uid : Nat) (conv : ConversationRec) (userMessage : String) (events : List Ev)
    (hmem : conv ∈ db) (hid : conv.id = cid) (harch : conv.is_archived = true)
    (huniq : ∀ c ∈ db, c.id = cid → c = conv) :
    get_conversation db cid uid = none
      ∧ chat_stream db msgs cid uid userMessage events
          = Except.error "Conversation not found"
      ∧ get_messages db msgs cid uid = Except.error "Conversation not found" := by
  have hnone : get_conversation db cid uid = none := by
    apply List.find?_eq_none.mpr
    intro c hc
    by_cases h : c.id = cid
    · have hceq : c = conv := huniq c hc h
      subst hceq
      simp [harch]
    · simp [h]
  exact ⟨hnone, by simp [chat_stream, hnone], by simp [get_messages, hnone]⟩

theorem C10_archived_unreachable_witness :
    (ConversationRec.mk 1 5 true ∈ [ConversationRec.mk 1 5 true]
        ∧ (ConversationRec.mk 1 5 true).id = 1
        ∧ (ConversationRec.mk 1 5 true).is_archived = true
        ∧ ∀ c ∈ [ConversationRec.mk 1 5 true], c.id = 1 → c = ConversationRec.mk 1 5 true)
      ∧ (get_conversation [ConversationRec.mk 1 5 true] 1 5 = none
          ∧ chat_stream [ConversationRec.mk 1 5 true] [] 1 5 "hi" []
              = Except.error "Conversation not found"
          ∧ get_messages [ConversationRec.mk 1 5 true] [] 1 5
              = Except.error "Conversation not found") :=
  ⟨⟨by decide, by decide, by decide, by decide⟩,
    C10_archived_unreachable [ConversationRec.mk 1 5 true] [] 1 5
      (ConversationRec.mk 1 5 true) "hi" [] (by decide) (by decide) (by decide) (by decide)⟩

/-! ### Claim C8 — the plain-text turn scenario -/

/-- C8.  The claim states the client receives three text frames, including
one for the empty `PartStart` content.  The source guards both text branches
with a truthiness check on the chunk (`if chunk:`), so the empty initial
content is neither accumulated nor emitted: only two frames reach the
client. -/
theorem C8_counterexample :
    (chatStreamRun 1 5 "hello"
        [Ev.partStartText "", Ev.partDeltaText "hi ", Ev.partDeltaText "there"]).2
      ≠ [ClientEv.text "", ClientEv.text "hi ", ClientEv.text "there"] := by
  decide

/-- C8 (amended).  For the stream PartStart(Text, ""), PartDelta("hi "),
PartDelta("there"), AgentRunResult the client receives exactly two text
frames "hi " and "there" (the empty PartStart content is skipped), and the
persisted rows are exactly one user row at step N and one model row with
content "hi there" at step N+1, with no tool-call rows. -/
theorem C8_plain_text_turn (cid n : Nat) :
    chatStreamRun cid n "hello"
        [Ev.partStartText "", Ev.partDeltaText "hi ", Ev.partDeltaText "there"]
      = ([userRow cid n "hello", finalModelRow cid (n + 1) "hi there"],
         [ClientEv.text "hi ", ClientEv.text "there"]) :=
  rfl

/-! ### Step-order bookkeeping of the engine -/

theorem engineStep_step_orders (cid : Nat) (s : EngineSt) (e : Ev) :
    ((engineStep cid s e).2.1).map (fun m => m.step_order)
        = List.range' s.step ((engineStep cid s e).2.1).length
      ∧ (engineStep cid s e).1.step = s.step + ((engineStep cid s e).2.1).length := by
  cases e <;> simp only [engineStep] <;> try exact ⟨rfl, rfl⟩
  · split <;> exact ⟨rfl, rfl⟩
  · split <;> exact ⟨rfl, rfl⟩
  · split
    · exact ⟨rfl, rfl⟩
    · exact ⟨rfl, rfl⟩

theorem engineRun_step_orders (cid : Nat) :
    ∀ (events : List Ev) (s : EngineSt),
      ((engineRun cid s events).2.1).map (fun m => m.step_order)
          = List.range' s.step ((engineRun cid s events).2.1).length
        ∧ (engineRun cid s events).1.step = s.step + ((engineRun cid s events).2.1).length := by
  intro events
  induction events with
  | nil => intro s; exact ⟨rfl, rfl⟩
  | cons e rest ih =>
    intro s
    have h1 := engineStep_step_orders cid s e
    have h2 := ih (engineStep cid s e).1
    simp only [engineRun]
    constructor
    · rw [List.map_append, h1.1, h2.1, h1.2, List.length_append]
      have hr := List.range'_append s.step ((engineStep cid s e).2.1).length
        ((engineRun cid (engineStep cid s e).1 rest).2.1).length 1
      simp only [one_mul, Nat.mul_one] at hr
      rw [Nat.add_comm ((engineStep cid s e).2.1).length
        ((engineRun cid (engineStep cid s e).1 rest).2.1).length]
      exact hr
    · rw [h2.2, h1.2, List.length_append]
      omega

theorem range'_snoc (s n : Nat) : List.range' s n ++ [s + n] = List.range' s (n + 1) := by
  have h := @List.range'_concat 1 s n
  simpa [Nat.one_mul] using h.symm

theorem chatStreamRun_step_orders (cid start : Nat) (userMessage : String) (events : List Ev) :
    ((chatStreamRun cid start userMessage events).1).map (fun m => m.step_order)
      = List.range' start ((chatStreamRun cid start userMessage events).1).length := by
  have h := engineRun_step_orders cid events
    { chunks := [], current := [], names := [], step := start + 1 }
  simp only [chatStreamRun]
  split
  · simp only [List.map_cons, List.map_append, List.map_nil, h.1, h.2, List.length_cons,
      List.length_append, List.length_nil, userRow, finalModelRow]
    rw [range'_snoc, ← List.range'_succ]
  · simp only [List.append_nil, List.map_cons, h.1, List.length_cons, userRow]
    rw [← List.range'_succ]

/-! ### Claim C5 — step_order monotonicity -/

/-- C5.  The claim asserts that step orders never collide even across
concurrent turns on the same conversation.  The source takes no
per-conversation lock: a turn reads the maximum step order once and then
commits rows across await points of the LLM stream.  In the interleaving
below, turn A commits its user row at step 1 and suspends on the stream;
turn B starts on the same conversation, reads max = 1 and commits its user
row at step 2; turn A resumes and commits its model row at its local counter
2 — two rows of the conversation share `step_order = 2`. -/
theorem C5_counterexample :
    ¬ ((((chatStreamRun 1 (get_next_step_order [] 1) "first" [Ev.partDeltaText "x"]).1.take 1
        ++ (chatStreamRun 1
              (get_next_step_order
                ((chatStreamRun 1 (get_next_step_order [] 1) "first" [Ev.partDeltaText "x"]).1.take 1)
                1) "second" []).1
        ++ (chatStreamRun 1 (get_next_step_order [] 1) "first" [Ev.partDeltaText "x"]).1.drop 1).map
          (fun m => m.step_order)).Nodup) := by
  decide

/-- C5 (amended).  For a single turn (no interleaved writers), the rows the
turn persists carry consecutive step orders starting exactly one above the
conversation's previous maximum: strictly increasing, gap-free, mutually
distinct and all larger than every previously persisted step order of the
conversation. -/
theorem C5_single_turn_steps (msgs : List Msg) (cid : Nat) (userMessage : String)
    (events : List Ev) :
    ((chatStreamRun cid (get_next_step_order msgs cid) userMessage events).1).map
        (fun m => m.step_order)
      = List.range' (get_next_step_order msgs cid)
          ((chatStreamRun cid (get_next_step_order msgs cid) userMessage events).1).length
    ∧ ∀ q ∈ msgs, q.conversation_id = cid → q.step_order < get_next_step_order msgs cid := by
  refine ⟨chatStreamRun_step_orders cid (get_next_step_order msgs cid) userMessage events, ?_⟩
  intro q hq hcid
  have hmem : q.step_order
      ∈ (msgs.filter (fun m => m.conversation_id = cid)).map (fun m => m.step_order) := by
    exact List.mem_map_of_mem _ (List.mem_filter.mpr ⟨hq, by simp [hcid]⟩)
  unfold get_next_step_order
  cases hmax : ((msgs.filter (fun m => m.conversation_id = cid)).map (fun m => m.step_order)).max? with
  | none =>
    rw [List.max?_eq_none_iff] at hmax
    rw [hmax] at hmem
    cases hmem
  | some m =>
    have hle := ((List.max?_eq_some_iff (fun a => Nat.le_refl a)
      (fun a b => max_choice a b) (fun a b c => Nat.max_le)).mp hmax).2 q.step_order hmem
    simpa using Nat.lt_succ_of_le hle

/-! ### Claim C4 — model-row flush on the first tool result -/

theorem engineStep_result_flush (cid : Nat) (s : EngineSt) (id content : String)
    (h : s.current ≠ []) :
    engineStep cid s (Ev.functionToolResult id content)
      = ({ chunks := [], current := [], names := s.names, step := s.step + 2 },
         [modelToolRow cid s.step (String.join s.chunks) s.current,
          toolReturnRow cid (s.step + 1) ((lookupName s.names id).getD "unknown") id content],
         [ClientEv.toolResult ((lookupName s.names id).getD "unknown") content id]) := by
  simp [engineStep, h]

theorem engineStep_result_noflush (cid : Nat) (s : EngineSt) (id content : String)
    (h : s.current = []) :
    engineStep cid s (Ev.functionToolResult id content)
      = ({ s with step := s.step + 1 },
         [toolReturnRow cid s.step ((lookupName s.names id).getD "unknown") id content],
         [ClientEv.toolResult ((lookupName s.names id).getD "unknown") content id]) := by
  simp [engineStep, h]

/-- C4.  On a `FunctionToolResultEvent` with pending tool calls the engine
commits, in this order within the iteration, one model row carrying the
joined accumulated text and the whole pending batch, then the tool-return
row, advancing the step counter past both and clearing the text and
tool-call accumulators; when no calls are pending (the later results of the
batch) only a tool-return row is committed. -/
theorem C4_flush_on_first_result (cid : Nat) (s : EngineSt) (id content : String) :
    (s.current ≠ [] →
      engineStep cid s (Ev.functionToolResult id content)
        = ({ chunks := [], current := [], names := s.names, step := s.step + 2 },
           [modelToolRow cid s.step (String.join s.chunks) s.current,
            toolReturnRow cid (s.step + 1) ((lookupName s.names id).getD "unknown") id content],
           [ClientEv.toolResult ((lookupName s.names id).getD "unknown") content id]))
    ∧ (s.current = [] →
      engineStep cid s (Ev.functionToolResult id content)
        = ({ s with step := s.step + 1 },
           [toolReturnRow cid s.step ((lookupName s.names id).getD "unknown") id content],
           [ClientEv.toolResult ((lookupName s.names id).getD "unknown") content id])) :=
  ⟨engineStep_result_flush cid s id content, engineStep_result_noflush cid s id content⟩

theorem C4_flush_on_first_result_witness :
    ((EngineSt.mk ["t"] [ToolCallRec.mk "ls" "{}" "c1"] [("c1", "ls")] 7).current ≠ []
     ∧ engineStep 1 (EngineSt.mk ["t"] [ToolCallRec.mk "ls" "{}" "c1"] [("c1", "ls")] 7)
          (Ev.functionToolResult "c1" "ok")
        = ({ chunks := [], current := [],
             names := (EngineSt.mk ["t"] [ToolCallRec.mk "ls" "{}" "c1"] [("c1", "ls")] 7).names,
             step := (EngineSt.mk ["t"] [ToolCallRec.mk "ls" "{}" "c1"] [("c1", "ls")] 7).step + 2 },
           [modelToolRow 1 7 (String.join ["t"]) [ToolCallRec.mk "ls" "{}" "c1"],
            toolReturnRow 1 8 ((lookupName [("c1", "ls")] "c1").getD "unknown") "c1" "ok"],
           [ClientEv.toolResult ((lookupName [("c1", "ls")] "c1").getD "unknown") "ok" "c1"])) :=
  ⟨by decide,
    (C4_flush_on_first_result 1 (EngineSt.mk ["t"] [ToolCallRec.mk "ls" "{}" "c1"] [("c1", "ls")] 7)
      "c1" "ok").1 (by decide)⟩

/-! ### Claim C7 — tool_call frames precede tool_result frames -/

theorem pairedEv_decomp :
    ∀ (pre : List ClientEv) (seen : List String) (suf : List ClientEv)
      (toolName result id : String),
      pairedEv seen (pre ++ ClientEv.toolResult toolName result id :: suf) →
      id ∈ seen ++ callIds pre := by
  intro pre
  induction pre with
  | nil =>
    intro seen suf toolName result id h
    simp only [List.nil_append, pairedEv] at h
    simpa [callIds] using h.1
  | cons x rest ih =>
    intro seen suf toolName result id h
    cases x with
    | text c =>
      simp only [List.cons_append, pairedEv] at h
      simpa [callIds] using ih seen suf toolName result id h
    | toolCall nm args j =>
      simp only [List.cons_append, pairedEv] at h
      have hmem := ih (seen ++ [j]) suf toolName result id h
      simpa [callIds, List.append_assoc] using hmem
    | toolResult nm res j =>
      simp only [List.cons_append, pairedEv] at h
      simpa [callIds] using ih seen suf toolName result id h.2

theorem engineRun_pairedEv (cid : Nat) :
    ∀ (events : List Ev) (w w' : WfSt) (s : EngineSt) (seen : List String),
      wfRun w events = some w' →
      (∀ x ∈ w.batch, x ∈ seen) → (∀ x ∈ w.due, x ∈ seen) →
      pairedEv seen (engineRun cid s events).2.2 := by
  intro events
  induction events with
  | nil =>
    intro w w' s seen _ _ _
    simp [engineRun, pairedEv]
  | cons e rest ih =>
    intro w w' s seen hwf hb hd
    cases hstep : wfStep w e with
    | none => rw [wfRun, hstep] at hwf; cases hwf
    | some w₁ =>
      have hwf' : wfRun w₁ rest = some w' := by rw [wfRun, hstep] at hwf; exact hwf
      cases e with
      | partStartText c =>
        have hw₁ : w₁ = w := by
          simp only [wfStep, Option.some.injEq] at hstep
          exact hstep.symm
        subst hw₁
        simp only [engineRun, engineStep]
        split
        · simpa [pairedEv] using ih w₁ w' _ seen hwf' hb hd
        · simpa [pairedEv] using ih w₁ w' _ seen hwf' hb hd
      | partDeltaText c =>
        have hw₁ : w₁ = w := by
          simp only [wfStep, Option.some.injEq] at hstep
          exact hstep.symm
        subst hw₁
        simp only [engineRun, engineStep]
        split
        · simpa [pairedEv] using ih w₁ w' _ seen hwf' hb hd
        · simpa [pairedEv] using ih w₁ w' _ seen hwf' hb hd
      | otherEvent =>
        have hw₁ : w₁ = w := by
          simp only [wfStep, Option.some.injEq] at hstep
          exact hstep.symm
        subst hw₁
        simpa [engineRun, engineStep, pairedEv] using ih w₁ w' _ seen hwf' hb hd
      | functionToolCall n a id =>
        simp only [wfStep] at hstep
        split at hstep
        · simp only [Option.some.injEq] at hstep
          subst hstep
          have hb' : ∀ x ∈ w.batch ++ [id], x ∈ seen ++ [id] := by
            intro x hx
            rcases List.mem_append.mp hx with hxb | hxi
            · exact List.mem_append_left _ (hb x hxb)
            · exact List.mem_append_right _ hxi
          have hd' : ∀ x ∈ ([] : List String), x ∈ seen ++ [id] := by
            intro x hx
            cases hx
          have htail := ih _ w'
            { s with current := s.current ++ [ToolCallRec.mk n a id],
                     names := namesSet s.names id n } (seen ++ [id]) hwf' hb' hd'
          simp only [engineRun, engineStep]
          simpa [pairedEv] using htail
        · simp at hstep
      | functionToolResult id content =>
        simp only [wfStep] at hstep
        split at hstep
        · -- due empty: this result flushes the batch
          split at hstep
          · rename_i hidb
            simp only [Option.some.injEq] at hstep
            subst hstep
            have hseen : id ∈ seen := hb id hidb
            have hb' : ∀ x ∈ ([] : List String), x ∈ seen := by
              intro x hx
              cases hx
            have hd' : ∀ x ∈ w.batch.erase id, x ∈ seen := by
              intro x hx
              exact hb x (List.mem_of_mem_erase hx)
            simp only [engineRun, engineStep]
            split
            · have htail := ih _ w'
                { chunks := [], current := [], names := s.names, step := s.step + 2 }
                seen hwf' hb' hd'
              simpa [pairedEv] using ⟨hseen, htail⟩
            · have htail := ih _ w' { s with step := s.step + 1 } seen hwf' hb' hd'
              simpa [pairedEv] using ⟨hseen, htail⟩
          · simp at hstep
        · -- due non-empty: a later result of the flushed batch
          split at hstep
          · rename_i hidd
            simp only [Option.some.injEq] at hstep
            subst hstep
            have hseen : id ∈ seen := hd id hidd
            have hd' : ∀ x ∈ w.due.erase id, x ∈ seen := by
              intro x hx
              exact hd x (List.mem_of_mem_erase hx)
            simp only [engineRun, engineStep]
            split
            · have htail := ih _ w'
                { chunks := [], current := [], names := s.names, step := s.step + 2 }
                seen hwf' hb hd'
              simpa [pairedEv] using ⟨hseen, htail⟩
            · have htail := ih _ w' { s with step := s.step + 1 } seen hwf' hb hd'
              simpa [pairedEv] using ⟨hseen, htail⟩
          · simp at hstep

/-- C7.  For a well-formed event stream, every `tool_result` frame the turn
emits is preceded, earlier in the same turn's client-event sequence, by a
`tool_call` frame carrying the same `tool_call_id`: the engine emits the
call frame while handling the `FunctionToolCallEvent`, which the stream
contract places before the corresponding result event. -/
theorem C7_call_frame_precedes_result (cid startStep : Nat) (userMessage : String)
    (events : List Ev) (hwf : WellFormed events) (pre suf : List ClientEv)
    (toolName result id : String)
    (hsplit : (chatStreamRun cid startStep userMessage events).2
        = pre ++ ClientEv.toolResult toolName result id :: suf) :
    ∃ nm args, ClientEv.toolCall nm args id ∈ pre := by
  obtain ⟨w, hrun, _⟩ := hwf
  have hp : pairedEv [] (chatStreamRun cid startStep userMessage events).2 := by
    have h := engineRun_pairedEv cid events { batch := [], due := [], used := [] } w
      { chunks := [], current := [], names := [], step := startStep + 1 } [] hrun
      (by intro x hx; cases hx) (by intro x hx; cases hx)
    simpa [chatStreamRun] using h
  rw [hsplit] at hp
  have hmem := pairedEv_decomp pre [] suf toolName result id hp
  simp only [List.nil_append, callIds] at hmem
  obtain ⟨e, he, hfe⟩ := List.mem_filterMap.mp hmem
  cases e with
  | text c => cases hfe
  | toolResult nm res j => cases hfe
  | toolCall nm args j =>
    simp only [Option.some.injEq] at hfe
    subst hfe
    exact ⟨nm, args, he⟩

theorem C7_call_frame_precedes_result_witness :
    WellFormed [Ev.functionToolCall "ls" "{}" "c1", Ev.functionToolResult "c1" "ok",
        Ev.partDeltaText "done"]
      ∧ ∃ nm args, ClientEv.toolCall nm args "c1" ∈ [ClientEv.toolCall "ls" "{}" "c1"] := by
  have hwf : WellFormed [Ev.functionToolCall "ls" "{}" "c1", Ev.functionToolResult "c1" "ok",
      Ev.partDeltaText "done"] :=
    ⟨{ batch := [], due := [], used := ["c1"] }, by decide, rfl⟩
  exact ⟨hwf, C7_call_frame_precedes_result 1 1 "go"
    [Ev.functionToolCall "ls" "{}" "c1", Ev.functionToolResult "c1" "ok", Ev.partDeltaText "done"]
    hwf [ClientEv.toolCall "ls" "{}" "c1"] [ClientEv.text "done"] "ls" "ok" "c1" (by decide)⟩

/-! ### Claim C3 — history validity -/

theorem chkRun_append (a b : List Msg) :
    ∀ st : ChkSt, chkRun st (a ++ b) = (chkRun st a).bind (fun st' => chkRun st' b) := by
  induction a with
  | nil => intro st; simp [chkRun]
  | cons m rest ih =>
    intro st
    cases h : chkStep st m with
    | none => simp [chkRun, h]
    | some st₁ => simp [chkRun, h, ih st₁]

theorem chkRun_take (l : List Msg) :
    ∀ (st stEnd : ChkSt), chkRun st l = some stEnd → ∀ n, chkRun st (l.take n) ≠ none := by
  induction l with
  | nil =>
    intro st stEnd h n
    simp [chkRun]
  | cons m rest ih =>
    intro st stEnd h n
    cases n with
    | zero => simp [chkRun]
    | succ k =>
      rw [List.take_succ_cons]
      cases hs : chkStep st m with
      | none => simp [chkRun, hs] at h
      | some st₁ =>
        have h' : chkRun st₁ rest = some stEnd := by
          rw [chkRun, hs] at h
          exact h
        simp only [chkRun, hs]
        exact ih st₁ stEnd h' k

theorem engineInv_step (cid : Nat) (w w' : WfSt) (s : EngineSt) (rows : List Msg) (e : Ev)
    (hinv : EngineInv w s rows) (hwf : wfStep w e = some w') :
    EngineInv w' (engineStep cid s e).1 (rows ++ (engineStep cid s e).2.1) := by
  obtain ⟨hlink, hchk, hbound, hduem, hpair, hdisj⟩ := hinv
  cases e with
  | partStartText c =>
    have hw : w' = w := by
      simp only [wfStep, Option.some.injEq] at hwf
      exact hwf.symm
    subst hw
    simp only [engineStep]
    split <;> exact ⟨hlink, by simpa using hchk, by simpa using hbound,
      fun d hd => by simpa using hduem d hd, by simpa using hpair, hdisj⟩
  | partDeltaText c =>
    have hw : w' = w := by
      simp only [wfStep, Option.some.injEq] at hwf
      exact hwf.symm
    subst hw
    simp only [engineStep]
    split <;> exact ⟨hlink, by simpa using hchk, by simpa using hbound,
      fun d hd => by simpa using hduem d hd, by simpa using hpair, hdisj⟩
  | otherEvent =>
    have hw : w' = w := by
      simp only [wfStep, Option.some.injEq] at hwf
      exact hwf.symm
    subst hw
    simp only [engineStep]
    exact ⟨hlink, by simpa using hchk, by simpa using hbound,
      fun d hd => by simpa using hduem d hd, by simpa using hpair, hdisj⟩
  | functionToolCall n a id =>
    simp only [wfStep] at hwf
    split at hwf
    · rename_i hguard
      simp only [Option.some.injEq] at hwf
      subst hwf
      have hdueNil : w.due = [] :=
        List.isEmpty_iff.mp ((Bool.and_eq_true _ _).mp hguard).1
      simp only [engineStep]
      refine ⟨?_, ?_, ?_, ?_, ?_, Or.inr rfl⟩
      · simp [hlink]
      · simpa [hdueNil] using hchk
      · simpa using hbound
      · intro d hd
        cases hd
      · simpa using hpair
    · simp at hwf
  | functionToolResult id content =>
    by_cases hcur : s.current = []
    · have hbatch : w.batch = [] := by
        rw [← hlink, hcur]
        rfl
      rw [engineStep_result_noflush cid s id content hcur]
      dsimp only
      simp only [wfStep] at hwf
      split at hwf
      · split at hwf
        · rename_i hidb
          rw [hbatch] at hidb
          cases hidb
        · simp at hwf
      · rename_i hdueNE
        split at hwf
        · rename_i hidd
          simp only [Option.some.injEq] at hwf
          subst hwf
          refine ⟨?_, ?_, ?_, ?_, ?_, Or.inl hbatch⟩
          · rw [hcur, hbatch]
            rfl
          · rw [chkRun_append, hchk, Option.some_bind]
            simp [chkRun, chkStep, toolReturnRow, hidd]
          · intro q hq
            rcases List.mem_append.mp hq with hq | hq
            · exact Nat.lt_succ_of_lt (hbound q hq)
            · simp only [List.mem_singleton] at hq
              subst hq
              exact Nat.lt_succ_self _
          · intro d hd
            obtain ⟨q, hq, hmod, calls, hcalls, hdid⟩ := hduem d (List.mem_of_mem_erase hd)
            exact ⟨q, List.mem_append_left _ hq, hmod, calls, hcalls, hdid⟩
          · intro r hr hrrole
            rcases List.mem_append.mp hr with hr | hr
            · obtain ⟨q, hq, hmod, hlt, pid, calls, hrid, hcalls, hdid⟩ := hpair r hr hrrole
              exact ⟨q, List.mem_append_left _ hq, hmod, hlt, pid, calls, hrid, hcalls, hdid⟩
            · simp only [List.mem_singleton] at hr
              subst hr
              obtain ⟨q, hq, hmod, calls, hcalls, hdid⟩ := hduem id hidd
              exact ⟨q, List.mem_append_left _ hq, hmod, hbound q hq, id, calls, rfl,
                hcalls, hdid⟩
        · simp at hwf
    · have hbatchNE : w.batch ≠ [] := by
        rw [← hlink]
        simpa [List.map_eq_nil_iff] using hcur
      have hdueNil : w.due = [] := hdisj.resolve_left hbatchNE
      rw [engineStep_result_flush cid s id content hcur]
      dsimp only
      simp only [wfStep] at hwf
      split at hwf
      · split at hwf
        · rename_i hidb
          simp only [Option.some.injEq] at hwf
          subst hwf
          refine ⟨rfl, ?_, ?_, ?_, ?_, Or.inl rfl⟩
          · rw [chkRun_append, hchk, Option.some_bind, hdueNil]
            simp [chkRun, chkStep, modelToolRow, toolReturnRow, hlink, hidb]
          · intro q hq
            dsimp only
            rcases List.mem_append.mp hq with hq | hq
            · have := hbound q hq
              omega
            · rcases List.mem_cons.mp hq with hq | hq
              · subst hq
                simp only [modelToolRow]
                omega
              · simp only [List.mem_singleton] at hq
                subst hq
                simp only [toolReturnRow]
                omega
          · intro d hd
            refine ⟨modelToolRow cid s.step (String.join s.chunks) s.current,
              List.mem_append_right _ (List.mem_cons_self _ _), rfl, s.current, rfl, ?_⟩
            rw [hlink]
            exact List.mem_of_mem_erase hd
          · intro r hr hrrole
            rcases List.mem_append.mp hr with hr | hr
            · obtain ⟨q, hq, hmod, hlt, pid, calls, hrid, hcalls, hdid⟩ := hpair r hr hrrole
              exact ⟨q, List.mem_append_left _ hq, hmod, hlt, pid, calls, hrid, hcalls, hdid⟩
            · rcases List.mem_cons.mp hr with hr | hr
              · subst hr
                cases hrrole
              · simp only [List.mem_singleton] at hr
                subst hr
                refine ⟨modelToolRow cid s.step (String.join s.chunks) s.current,
                  List.mem_append_right _ (List.mem_cons_self _ _), rfl, ?_, id, s.current,
                  rfl, rfl, ?_⟩
                · simp only [modelToolRow, toolReturnRow]
                  omega
                · rw [hlink]
                  exact hidb
        · simp at hwf
      · rename_i hdueNE
        exact absurd (List.isEmpty_iff.mpr hdueNil) hdueNE

theorem engineInv_run (cid : Nat) :
    ∀ (events : List Ev) (w w' : WfSt) (s : EngineSt) (rows : List Msg),
      EngineInv w s rows → wfRun w events = some w' →
      EngineInv w' (engineRun cid s events).1 (rows ++ (engineRun cid s events).2.1) := by
  intro events
  induction events with
  | nil =>
    intro w w' s rows hinv hwf
    simp only [wfRun, Option.some.injEq] at hwf
    subst hwf
    simpa [engineRun] using hinv
  | cons e rest ih =>
    intro w w' s rows hinv hwf
    cases hstep : wfStep w e with
    | none => rw [wfRun, hstep] at hwf; cases hwf
    | some w₁ =>
      have hwf' : wfRun w₁ rest = some w' := by
        rw [wfRun, hstep] at hwf
        exact hwf
      have h₁ := engineInv_step cid w w₁ s rows e hinv hstep
      have h₂ := ih w₁ w' (engineStep cid s e).1 (rows ++ (engineStep cid s e).2.1) h₁ hwf'
      simpa [engineRun, List.append_assoc] using h₂

/-- C3.  For a well-formed event stream, the rows the turn persists (the user
row, the rows committed during the loop, and the final text row) read back in
commit order form a valid alternation at every prefix, and every tool-return
row is preceded by a model row whose tool calls contain its `tool_call_id`
at a strictly smaller `step_order`. -/
theorem C3_history_validity (cid startStep : Nat) (userMessage : String) (events : List Ev)
    (hwf : WellFormed events) :
    (∀ n, validTurnRows (((chatStreamRun cid startStep userMessage events).1).take n))
      ∧ PairedRows ((chatStreamRun cid startStep userMessage events).1) := by
  obtain ⟨w, hrun, hdue⟩ := hwf
  have h0 : EngineInv { batch := [], due := [], used := [] }
      { chunks := [], current := [], names := [], step := startStep + 1 } [] := by
    refine ⟨rfl, rfl, ?_, ?_, ?_, Or.inl rfl⟩
    · intro q hq
      cases hq
    · intro d hd
      cases hd
    · intro r hr
      cases hr
  have hinv := engineInv_run cid events { batch := [], due := [], used := [] } w
    { chunks := [], current := [], names := [], step := startStep + 1 } [] h0 hrun
  obtain ⟨hlink, hchk, hbound, hduem, hpair, hdisj⟩ := hinv
  rw [List.nil_append] at hchk hbound hpair
  rw [hdue] at hchk
  -- the complete body of the turn: loop rows plus the optional final text row
  have hbodyChk : ∃ stEnd, chkRun { rem := [], finalSeen := false }
      ((engineRun cid { chunks := [], current := [], names := [], step := startStep + 1 }
          events).2.1
        ++ (if (engineRun cid { chunks := [], current := [], names := [], step := startStep + 1 }
              events).1.chunks ≠ [] then
            [finalModelRow cid
              (engineRun cid { chunks := [], current := [], names := [], step := startStep + 1 }
                events).1.step
              (String.join
                (engineRun cid { chunks := [], current := [], names := [], step := startStep + 1 }
                  events).1.chunks)]
          else [])) = some stEnd := by
    rw [chkRun_append, hchk, Option.some_bind]
    split
    · exact ⟨{ rem := [], finalSeen := true }, by simp [chkRun, chkStep, finalModelRow]⟩
    · exact ⟨{ rem := [], finalSeen := false }, rfl⟩
  obtain ⟨stEnd, hstEnd⟩ := hbodyChk
  constructor
  · intro n
    cases n with
    | zero => exact True.intro
    | succ k =>
      show validTurnRows (userRow cid startStep userMessage :: List.take k _)
      refine ⟨rfl, ?_⟩
      exact chkRun_take _ _ stEnd hstEnd k
  · intro r hr hrrole
    rcases List.mem_cons.mp hr with hr | hr
    · subst hr
      cases hrrole
    · rcases List.mem_append.mp hr with hr | hr
      · obtain ⟨q, hq, hmod, hlt, pid, calls, hrid, hcalls, hdid⟩ := hpair r hr hrrole
        exact ⟨q, List.mem_cons_of_mem _ (List.mem_append_left _ hq), hmod, hlt, pid, calls,
          hrid, hcalls, hdid⟩
      · revert hr
        split
        · intro hr
          simp only [List.mem_singleton] at hr
          subst hr
          cases hrrole
        · intro hr
          cases hr

theorem C5_single_turn_steps_witness :
    (((chatStreamRun 1 (get_next_step_order [] 1) "hi" []).1).map (fun m => m.step_order)
        = List.range' (get_next_step_order [] 1)
            ((chatStreamRun 1 (get_next_step_order [] 1) "hi" []).1).length)
      ∧ ∀ q ∈ ([] : List Msg), q.conversation_id = 1 → q.step_order < get_next_step_order [] 1 :=
  C5_single_turn_steps [] 1 "hi" []

theorem C6_write_todos_unconditional_witness :
    (write_todos { todos := [] } [TodoItem.mk "a" TodoStatus.in_progress "A"]).1.todos
      = [TodoItem.mk "a" TodoStatus.in_progress "A"].map
          (fun t => Todo.mk t.content t.status t.active_form) :=
  C6_write_todos_unconditional { todos := [] } [TodoItem.mk "a" TodoStatus.in_progress "A"]

theorem C8_plain_text_turn_witness :
    chatStreamRun 1 5 "hello"
        [Ev.partStartText "", Ev.partDeltaText "hi ", Ev.partDeltaText "there"]
      = ([userRow 1 5 "hello", finalModelRow 1 (5 + 1) "hi there"],
         [ClientEv.text "hi ", ClientEv.text "there"]) :=
  C8_plain_text_turn 1 5

theorem C3_history_validity_witness :
    WellFormed [Ev.functionToolCall "ls" "{}" "c1", Ev.functionToolResult "c1" "ok",
        Ev.partDeltaText "done"]
      ∧ ((∀ n, validTurnRows (((chatStreamRun 1 1 "go"
            [Ev.functionToolCall "ls" "{}" "c1", Ev.functionToolResult "c1" "ok",
             Ev.partDeltaText "done"]).1).take n))
          ∧ PairedRows ((chatStreamRun 1 1 "go"
              [Ev.functionToolCall "ls" "{}" "c1", Ev.functionToolResult "c1" "ok",
               Ev.partDeltaText "done"]).1)) := by
  have hwf : WellFormed [Ev.functionToolCall "ls" "{}" "c1", Ev.functionToolResult "c1" "ok",
      Ev.partDeltaText "done"] :=
    ⟨{ batch := [], due := [], used := ["c1"] }, by decide, rfl⟩
  exact ⟨hwf, C3_history_validity 1 1 "go"
    [Ev.functionToolCall "ls" "{}" "c1", Ev.functionToolResult "c1" "ok",
     Ev.partDeltaText "done"] hwf⟩

end PydanticDeep
